import Mathlib

set_option linter.unusedSectionVars false

/-!
Verification development for `asyncio_contextmanager_pool`
(src/asyncio_contextmanager_pool/__init__.py), a reference-counted pool of
async context managers with TTL-based deferred eviction.

The embedding is a shallow one:

* `reduce_args` is the default key deriver; the builtin `hash` it calls is
  modelled after CPython's documented hash semantics (integers are reduced
  modulo the Mersenne prime 2^61 - 1; tuple hashing is the xxHash-based
  combination of the element hashes used by CPython 3.8+, which depends only
  on the element hashes and the length).
* `Holder` models `_Holder`, `PoolS` models `Pool`: the instance dictionary
  and the timer dictionary become association lists (Python dictionaries are
  insertion ordered), and a pending `TimerHandle` is modelled by the presence
  of its key in the timer list (cancelling a timer removes the key, and a
  timer can only fire while its key is present).
* Asynchronous behaviour is modelled by the event/step relation `step`: a
  transition fires atomically, matching the cooperative single-threaded
  scheduling of asyncio in which no suspension point falls inside these
  operations.  `Ev.enter` models the documented usage `async with pool.get(...)`,
  where no suspension point separates `get` from the reference-count
  increment of `__aenter__`.  The TTL clock is abstracted into enabledness:
  `Ev.fire k` may occur exactly while the timer for `k` is pending.
-/

namespace ACMPool

/-! ### Python values and CPython hashing, for the default key deriver -/

/-- Python values that can appear as pooled-call arguments in this model:
integers, strings, and `None`. -/
inductive PyObj where
  | int : Int → PyObj
  | str : String → PyObj
  | none : PyObj
deriving DecidableEq

/-- The Mersenne prime modulus CPython documents for numeric hashing on
64-bit platforms. -/
def pyHashModulus : Int := 2 ^ 61 - 1

/-- CPython hash of an integer: reduce the absolute value modulo 2^61 - 1
keeping the sign, then replace the reserved value -1 by -2. -/
def pyHashInt (n : Int) : Int :=
  let h : Int := if 0 ≤ n then n % pyHashModulus else -((-n) % pyHashModulus)
  if h = -1 then -2 else h

/-- Models the per-process string hash.  CPython hashes strings with a
process-seeded SipHash; within one process it is an arbitrary deterministic
function of the string, which is all the development relies on.  This stands
in for one such fixed seed. -/
def pyHashStr (s : String) : Int :=
  let h : Nat := s.data.foldl (fun a c => (a * 1000003 + c.toNat) % (2 ^ 64)) 5381
  (h : Int)

/-- CPython hash of a supported value.  `None` hashes to a fixed constant. -/
def pyHash : PyObj → Int
  | .int n => pyHashInt n
  | .str s => pyHashStr s
  | .none => 271828182845905

/-- Wrap-around modulus of 64-bit unsigned arithmetic. -/
def u64Mod : Nat := 2 ^ 64

/-- Rotate a 64-bit word left by `r` bits. -/
def rotl64 (x r : Nat) : Nat :=
  (((x <<< r) % u64Mod) ||| (x >>> (64 - r)))

/-- Reinterpret a (signed) hash value as an unsigned 64-bit word. -/
def toU64 (i : Int) : Nat := (i % (u64Mod : Int)).toNat

/-- Reinterpret an unsigned 64-bit word as a signed value. -/
def ofU64 (n : Nat) : Int := if n < 2 ^ 63 then (n : Int) else (n : Int) - (u64Mod : Int)

def xxPrime1 : Nat := 11400714785074694791
def xxPrime2 : Nat := 14029467366897019727
def xxPrime5 : Nat := 2870177450012600261

/-- CPython 3.8+ tuple hash: the xxHash-style combination of the element
hashes.  It is a function of the element hashes and the tuple length only. -/
def pyHashTuple (hs : List Int) : Int :=
  let acc := hs.foldl
    (fun acc h => (rotl64 ((acc + toU64 h * xxPrime2) % u64Mod) 31) * xxPrime1 % u64Mod)
    xxPrime5
  let acc := (acc + Nat.xor (hs.length % u64Mod) (Nat.xor xxPrime5 3527539)) % u64Mod
  let acc := if acc = u64Mod - 1 then 1546275796 else acc
  ofU64 acc

/-- Positional and named arguments of one call: the positional arguments in
call order, and the named arguments as an insertion-ordered association list
(a Python `dict` never holds a key twice). -/
def ArgsP : Type := List PyObj × List (String × PyObj)

instance : DecidableEq ArgsP := by
  unfold ArgsP
  infer_instance

/-- Lookup of a named argument (`kwargs[k]`). -/
def kwLookup (kwargs : List (String × PyObj)) (k : String) : PyObj :=
  match kwargs.find? (fun p => p.1 == k) with
  | some p => p.2
  | Option.none => PyObj.none

/-- Translation of `reduce_args`: hash the tuple made of the positional
arguments in order, followed by the named-argument keys in sorted order each
followed by its value. -/
def reduce_args (args : List PyObj) (kwargs : List (String × PyObj)) : Int :=
  let kwargs_keys := List.insertionSort (fun a b : String => a ≤ b) (kwargs.map Prod.fst)
  let hash_values :=
    args ++ kwargs_keys.foldr (fun k acc => PyObj.str k :: kwLookup kwargs k :: acc) []
  pyHashTuple (hash_values.map pyHash)

/-- The default key deriver, packaged over `ArgsP`. -/
def reduceKey (a : ArgsP) : Int := reduce_args a.1 a.2

/-! ### The Holder (`_Holder`) and the Pool (`Pool`) -/

variable {A K V : Type}

/-- State of one underlying async context manager (the object returned by
the caller-supplied factory).  Entering it increments `enter_called` and
yields `enter_result` (`Option.none` models a factory whose `__aenter__`
returns `None`); exiting it increments `exit_called`.  This mirrors the
repository's own test double, which records exactly these counters. -/
structure Resource (V : Type) where
  enter_called : Nat
  exit_called : Nat
  enter_result : Option V
deriving DecidableEq

/-- Errors raised by `_Holder`. -/
inductive PyErr where
  /-- `RuntimeError("Not possible?")` in `_Holder.__aenter__`. -/
  | notPossible : PyErr
  /-- `RuntimeError("__aexit__ called too many times")` in `_Holder.__aexit__`. -/
  | aexitTooMany : PyErr
deriving DecidableEq

/-- Translation of `_Holder`: `value` is `self._value`, `count` is
`self._count`, and the remaining fields keep their source names.  The
back-reference `self._cache` is represented by performing the
`_mark_for_deletion` notification in the pool-level wrapper
`PoolS.holder_aexit`. -/
structure Holder (K V : Type) where
  value : Resource V
  count : Int
  called_aenter : Bool
  managed_value : Option V
  key : K
deriving DecidableEq

/-- A holder as `Pool.get` freshly constructs it. -/
def Holder.fresh (k : K) (r : Option V) : Holder K V :=
  { value := { enter_called := 0, exit_called := 0, enter_result := r },
    count := 0, called_aenter := false, managed_value := Option.none, key := k }

/-- Translation of `_Holder.__aenter__`: increment the count; on the first
acquisition enter the underlying resource and cache its value; raise if the
cached value is `None`; otherwise return it. -/
def Holder.aenter (h : Holder K V) : Except PyErr V × Holder K V :=
  let h := { h with count := h.count + 1 }
  let h :=
    if h.called_aenter then h
    else
      { h with called_aenter := true,
               value := { h.value with enter_called := h.value.enter_called + 1 },
               managed_value := h.value.enter_result }
  match h.managed_value with
  | Option.none => (Except.error PyErr.notPossible, h)
  | some v => (Except.ok v, h)

/-- Translation of `_Holder.close`: exit the underlying resource. -/
def Holder.close (h : Holder K V) : Holder K V :=
  { h with value := { h.value with exit_called := h.value.exit_called + 1 } }

/-- Translation of `_Holder.__aexit__` without the pool notification:
decrement the count; raise if it went negative; the boolean reports whether
the count reached exactly zero (in which case the source notifies the pool
via `self._cache._mark_for_deletion(self._key)`). -/
def Holder.aexit (h : Holder K V) : Option PyErr × Holder K V × Bool :=
  let h := { h with count := h.count - 1 }
  if h.count < 0 then (some PyErr.aexitTooMany, h, false)
  else (Option.none, h, h.count == 0)

/-- Translation of `Pool`: `instances` and `timers` are the two
dictionaries, kept as insertion-ordered association lists (Python
dictionaries preserve insertion order).  Holders are stored in `holders` and
referenced by their index, which models object identity; `instances` maps a
key to such an index.  A pending `TimerHandle` for a key is modelled by the
key's presence in `timers`: cancelling removes it, and the timer can only
fire while present.  `factory_log` records every invocation of the
caller-supplied factory (`self._getter`) with its argument set.  The factory
itself and the key function are passed as parameters to the operations, and
`_ttl` is abstracted into the enabledness of the firing event. -/
structure PoolS (A K V : Type) where
  instances : List (K × Nat)
  timers : List K
  holders : List (Holder K V)
  factory_log : List A
deriving DecidableEq

/-- The freshly constructed pool: both dictionaries empty. -/
def PoolS.initial : PoolS A K V :=
  { instances := [], timers := [], holders := [], factory_log := [] }

variable [DecidableEq K]

/-- Dictionary lookup (`m[k]` / `k in m`) on the association list. -/
def lookupK (m : List (K × Nat)) (k : K) : Option Nat :=
  (m.find? (fun p => decide (p.1 = k))).map Prod.snd

/-- Dictionary removal (`m.pop(k, None)` discarding the value). -/
def eraseKey (m : List (K × Nat)) (k : K) : List (K × Nat) :=
  m.filter (fun p => decide (p.1 ≠ k))

/-- Translation of `Pool._stop_timer`: pop the timer for `k`, if any, and
cancel it (a cancelled timer can no longer fire, which the model expresses
by removing the key). -/
def PoolS.stop_timer (s : PoolS A K V) (k : K) : PoolS A K V :=
  { s with timers := s.timers.filter (fun x => decide (x ≠ k)) }

/-- Translation of `Pool.get`: derive the key, stop any pending timer for
it, create and store a holder over a fresh factory result if the key is
absent, and return the holder for the key (as its index). -/
def PoolS.get (keyFn : A → K) (getter : A → Option V) (s : PoolS A K V) (a : A) :
    Nat × PoolS A K V :=
  let k := keyFn a
  let s := s.stop_timer k
  match lookupK s.instances k with
  | some hid => (hid, s)
  | Option.none =>
      let hid := s.holders.length
      (hid,
        { s with
          holders := s.holders ++ [Holder.fresh k (getter a)],
          instances := s.instances ++ [(k, hid)],
          factory_log := s.factory_log ++ [a] })

/-- Translation of `Pool._mark_for_deletion`: stop any existing timer for
the key, then schedule the deferred deletion (`loop.call_later`), i.e. make
the key's timer pending. -/
def PoolS.mark_for_deletion (s : PoolS A K V) (k : K) : PoolS A K V :=
  let s := s.stop_timer k
  { s with timers := s.timers ++ [k] }

/-- `_Holder.__aexit__` of the holder stored at index `hid`, including the
`_mark_for_deletion` notification to the owning pool when the count reaches
zero. -/
def PoolS.holder_aexit (s : PoolS A K V) (hid : Nat) : Option PyErr × PoolS A K V :=
  match s.holders[hid]? with
  | Option.none => (Option.none, s)
  | some h =>
      let r := h.aexit
      let s := { s with holders := s.holders.set hid r.2.1 }
      match r.1 with
      | some e => (some e, s)
      | Option.none =>
          (Option.none, if r.2.2 then s.mark_for_deletion r.2.1.key else s)

/-- Translation of `Pool._delete`: stop the timer for the key, pop the
holder from the instance dictionary, and close it if it was present. -/
def PoolS.delete (s : PoolS A K V) (k : K) : PoolS A K V :=
  let s := s.stop_timer k
  match lookupK s.instances k with
  | Option.none => s
  | some hid =>
      let s := { s with instances := eraseKey s.instances k }
      match s.holders[hid]? with
      | Option.none => s
      | some h => { s with holders := s.holders.set hid h.close }

/-- Translation of `Pool.__aexit__`: delete every key currently present, in
dictionary order. -/
def PoolS.shutdown (s : PoolS A K V) : PoolS A K V :=
  (s.instances.map Prod.fst).foldl PoolS.delete s

/-- Translation of `Pool.__len__`. -/
def PoolS.len (s : PoolS A K V) : Nat := s.instances.length

/-! ### The event model

Events are the pool operations as they occur under the documented usage
`async with pool.get(...)`: between `get` and the count increment of
`__aenter__` there is no suspension point, so they form one atomic
transition.  A timer may fire exactly while it is pending (the TTL clock is
abstracted into this enabledness), and a transition that raises a
programming error produces no successor state (the spec treats these errors
as fatal; their local effect on the holder is settled separately at the
level of the holder operations themselves). -/

/-- One observable event of the pool. -/
inductive Ev (A K : Type) where
  /-- `async with pool.get(a)` begins: `get` immediately followed by the
  holder's `__aenter__`. -/
  | enter : A → Ev A K
  /-- The scope that acquired the holder currently stored under `k` exits:
  the holder's `__aexit__`. -/
  | exitScope : K → Ev A K
  /-- The pending deferred-deletion timer for `k` fires after the TTL:
  `Pool._delete k`. -/
  | fire : K → Ev A K
  /-- `async with pool: ...` ends: `Pool.__aexit__`. -/
  | shutdown : Ev A K

/-- The transition function of the pool. -/
def step (keyFn : A → K) (getter : A → Option V) (s : PoolS A K V) :
    Ev A K → Option (PoolS A K V)
  | Ev.enter a =>
      let r := PoolS.get keyFn getter s a
      match r.2.holders[r.1]? with
      | Option.none => Option.none
      | some h =>
          match h.aenter with
          | (Except.error _, _) => Option.none
          | (Except.ok _, h') => some { r.2 with holders := r.2.holders.set r.1 h' }
  | Ev.exitScope k =>
      match lookupK s.instances k with
      | Option.none => Option.none
      | some hid =>
          match s.holder_aexit hid with
          | (some _, _) => Option.none
          | (Option.none, s') => some s'
  | Ev.fire k => if k ∈ s.timers then some (s.delete k) else Option.none
  | Ev.shutdown => some s.shutdown

/-- The pool states reachable from the fresh pool under a fixed key
function and factory. -/
inductive Reach (keyFn : A → K) (getter : A → Option V) : PoolS A K V → Prop where
  | base : Reach keyFn getter PoolS.initial
  | next {s s' : PoolS A K V} {e : Ev A K} :
      Reach keyFn getter s → step keyFn getter s e = some s' → Reach keyFn getter s'

/-! ### Sequences of acquisitions and releases on one holder -/

/-- One operation on a single holder. -/
inductive HEv where
  /-- A scoped acquisition (`__aenter__`). -/
  | acq : HEv
  /-- A scope exit (`__aexit__`). -/
  | rel : HEv
deriving DecidableEq

/-- Run a sequence of acquisitions and releases on a holder, keeping the
holder state (errors do not roll the holder's mutations back). -/
def runH (h : Holder K V) : List HEv → Holder K V
  | [] => h
  | HEv.acq :: es => runH h.aenter.2 es
  | HEv.rel :: es => runH h.aexit.2.1 es

/-- Run a sequence of acquisitions and releases on a holder and report the
first error raised, if any (the spec treats these as fatal, so the run
stops there). -/
def runHE (h : Holder K V) : List HEv → Option PyErr
  | [] => Option.none
  | HEv.acq :: es =>
      match h.aenter with
      | (Except.error e, _) => some e
      | (Except.ok _, h') => runHE h' es
  | HEv.rel :: es =>
      match h.aexit with
      | (some e, _, _) => some e
      | (Option.none, h', _) => runHE h' es

/-- Iterated acquisition of one holder. -/
def aenterN (h : Holder K V) : Nat → Holder K V
  | 0 => h
  | n + 1 => (aenterN h n).aenter.2

/-! ### Invariant predicates -/

/-- Invariants that every reachable pool state satisfies: the dictionaries
hold no duplicate keys, every stored index is in range and its holder
carries the matching key, a non-negative count and an unexited resource, no
holder's resource is ever exited twice, and a key has a pending timer
exactly while its holder's reference count is zero. -/
structure WF (s : PoolS A K V) : Prop where
  keys_nodup : (s.instances.map Prod.fst).Nodup
  mapped_lt : ∀ p ∈ s.instances, p.2 < s.holders.length
  mapped_key : ∀ p ∈ s.instances, ∀ h, s.holders[p.2]? = some h → h.key = p.1
  mapped_count : ∀ p ∈ s.instances, ∀ h, s.holders[p.2]? = some h → 0 ≤ h.count
  mapped_exit : ∀ p ∈ s.instances, ∀ h, s.holders[p.2]? = some h →
      h.value.exit_called = 0
  exit_le : ∀ h ∈ s.holders, h.value.exit_called ≤ 1
  timers_nodup : s.timers.Nodup
  timer_count : ∀ k ∈ s.timers, ∃ hid h, lookupK s.instances k = some hid ∧
      s.holders[hid]? = some h ∧ h.count = 0
  zero_timer : ∀ p ∈ s.instances, ∀ h, s.holders[p.2]? = some h →
      h.count = 0 → p.1 ∈ s.timers

/-- The structural part of `WF` concerning only the instance dictionary and
the holder store; unlike `WF` it is preserved even by a `get` that is not
followed by an acquisition. -/
structure WFmap (s : PoolS A K V) : Prop where
  keys_nodup : (s.instances.map Prod.fst).Nodup
  mapped_lt : ∀ p ∈ s.instances, p.2 < s.holders.length
  mapped_key : ∀ p ∈ s.instances, ∀ h, s.holders[p.2]? = some h → h.key = p.1

/-- Invariant of a holder whose underlying resource's entry yields `v`: the
entry count mirrors the entered-flag and the cached value is `v` once
entered. -/
def InvH (h : Holder K V) (v : V) : Prop :=
  h.value.enter_result = some v ∧
  h.value.enter_called = (if h.called_aenter then 1 else 0) ∧
  (h.called_aenter = true → h.managed_value = some v)


/-! ### Concrete example states used to instantiate the theorems -/

def exKey : Nat → Nat := fun n => n

def exGetter : Nat → Option Nat := fun _ => some 0

/-- The pool after `async with pool.get(7)` has begun. -/
def exPool1 : PoolS Nat Nat Nat :=
  (step exKey exGetter PoolS.initial (Ev.enter 7)).getD PoolS.initial

/-- The pool after that scope has exited: reference count back to zero and a
pending eviction timer for key 7. -/
def exPool2 : PoolS Nat Nat Nat :=
  (step exKey exGetter exPool1 (Ev.exitScope 7)).getD PoolS.initial

/-- Witness data: a factory for pools keyed by the default deriver. -/
def c1Getter : ArgsP → Option Nat := fun _ => some 0

/-- Witness data: an argument set with two named arguments. -/
def c1A : ArgsP := ([PyObj.int 5], [("x", PyObj.int 1), ("y", PyObj.int 2)])

/-- Witness data: the same argument set with the named arguments reordered. -/
def c1B : ArgsP := ([PyObj.int 5], [("y", PyObj.int 2), ("x", PyObj.int 1)])

/-- Witness data: the pool after one `get` with `c1A`. -/
def c1S1 : PoolS ArgsP Int Nat := (PoolS.get reduceKey c1Getter PoolS.initial c1A).2

/-- Counterexample data: 0 and 2^61 - 1 are distinct integers with equal
CPython hashes, hence equal derived keys. -/
def c4A : ArgsP := ([PyObj.int 0], [])

def c4B : ArgsP := ([PyObj.int (2 ^ 61 - 1)], [])

def c4Getter : ArgsP → Option Nat := fun _ => some 0

def c8args : List PyObj := [PyObj.int 3]

def c8kw1 : List (String × PyObj) := [("b", PyObj.int 1), ("a", PyObj.str "hello")]

def c8kw2 : List (String × PyObj) := [("a", PyObj.str "hello"), ("b", PyObj.int 1)]

/-! ### Basic facts about the dictionary model -/

theorem nodup_keys_eq {α β : Type} {l : List (α × β)}
    (nd : (l.map Prod.fst).Nodup) :
    ∀ p ∈ l, ∀ q ∈ l, p.1 = q.1 → p = q := by
  induction l with
  | nil => intro p hp; cases hp
  | cons x xs ih =>
      simp only [List.map_cons, List.nodup_cons] at nd
      intro p hp q hq hpq
      rcases List.mem_cons.mp hp with hp1 | hp1
      · rcases List.mem_cons.mp hq with hq1 | hq1
        · rw [hp1, hq1]
        · exfalso
          apply nd.1
          rw [← hp1, hpq]
          exact List.mem_map_of_mem Prod.fst hq1
      · rcases List.mem_cons.mp hq with hq1 | hq1
        · exfalso
          apply nd.1
          rw [← hq1, ← hpq]
          exact List.mem_map_of_mem Prod.fst hp1
        · exact ih nd.2 p hp1 q hq1 hpq

theorem lookupK_eq_none_iff {m : List (K × Nat)} {k : K} :
    lookupK m k = Option.none ↔ ∀ p ∈ m, p.1 ≠ k := by
  simp [lookupK, List.find?_eq_none]

theorem lookupK_some_mem {m : List (K × Nat)} {k : K} {hid : Nat}
    (h : lookupK m k = some hid) : (k, hid) ∈ m := by
  simp only [lookupK, Option.map_eq_some'] at h
  obtain ⟨p, hp, hv⟩ := h
  have h1 := List.find?_some hp
  have h2 := List.mem_of_find?_eq_some hp
  simp only [decide_eq_true_eq] at h1
  obtain ⟨pk, pv⟩ := p
  cases h1
  cases hv
  exact h2

theorem lookupK_of_mem_nodup {m : List (K × Nat)} {k : K} {hid : Nat}
    (nd : (m.map Prod.fst).Nodup) (hm : (k, hid) ∈ m) :
    lookupK m k = some hid := by
  induction m with
  | nil => cases hm
  | cons x xs ih =>
      simp only [List.map_cons, List.nodup_cons] at nd
      rcases List.mem_cons.mp hm with hm | hm
      · subst hm
        simp [lookupK, List.find?_cons]
      · have hx : x.1 ≠ k := by
          intro hx
          exact nd.1 (hx ▸ List.mem_map_of_mem Prod.fst hm)
        simpa [lookupK, List.find?_cons, hx] using ih nd.2 hm

theorem mem_eraseKey {m : List (K × Nat)} {k : K} {p : K × Nat} :
    p ∈ eraseKey m k ↔ p ∈ m ∧ p.1 ≠ k := by
  simp [eraseKey, List.mem_filter]

theorem eraseKey_sublist {m : List (K × Nat)} {k : K} :
    List.Sublist (eraseKey m k) m :=
  List.filter_sublist m

theorem lookupK_eraseKey_self {m : List (K × Nat)} {k : K} :
    lookupK (eraseKey m k) k = Option.none :=
  lookupK_eq_none_iff.mpr fun _ hp => (mem_eraseKey.mp hp).2

theorem lookupK_eraseKey_ne {m : List (K × Nat)} {k k' : K} (h : k' ≠ k) :
    lookupK (eraseKey m k) k' = lookupK m k' := by
  induction m with
  | nil => rfl
  | cons x xs ih =>
      have h' : ¬ k = k' := fun hk => h hk.symm
      by_cases hx : x.1 = k
      · have hx' : ¬ x.1 = k' := by rw [hx]; exact fun hk => h hk.symm
        simpa [eraseKey, lookupK, List.filter_cons, hx, List.find?_cons, hx', h, h']
          using ih
      · by_cases hx' : x.1 = k'
        · simp [eraseKey, lookupK, List.filter_cons, hx, List.find?_cons, hx', h, h']
        · simpa [eraseKey, lookupK, List.filter_cons, hx, List.find?_cons, hx', h, h']
            using ih

theorem lookupK_append {m l : List (K × Nat)} {k : K} :
    lookupK (m ++ l) k = (lookupK m k).or (lookupK l k) := by
  simp only [lookupK, List.find?_append]
  cases m.find? (fun p => decide (p.1 = k)) <;> simp

theorem lookupK_singleton {k k' : K} {hid : Nat} :
    lookupK [(k, hid)] k' = if k' = k then some hid else Option.none := by
  by_cases h : k' = k
  · subst h
    simp [lookupK, List.find?_cons]
  · have h' : ¬ k = k' := fun hk => h hk.symm
    simp [lookupK, List.find?_cons, h, h']

theorem eraseKey_eq_self {m : List (K × Nat)} {k : K}
    (h : lookupK m k = Option.none) : eraseKey m k = m :=
  List.filter_eq_self.mpr fun p hp => by
    simpa using (lookupK_eq_none_iff.mp h) p hp

theorem mem_filter_ne {l : List K} {k k' : K} :
    k' ∈ l.filter (fun x => decide (x ≠ k)) ↔ k' ∈ l ∧ k' ≠ k := by
  simp [List.mem_filter]

/-! ### Characterizations of the holder operations -/

theorem Holder.aenter_snd (h : Holder K V) :
    h.aenter.2 =
      if h.called_aenter then { h with count := h.count + 1 }
      else
        { h with count := h.count + 1, called_aenter := true,
                 value := { h.value with enter_called := h.value.enter_called + 1 },
                 managed_value := h.value.enter_result } := by
  by_cases hc : h.called_aenter
  · simp only [Holder.aenter, hc, if_true]
    cases h.managed_value <;> rfl
  · simp only [Holder.aenter, hc, if_false]
    cases h.value.enter_result <;> rfl

theorem Holder.aenter_fst (h : Holder K V) :
    h.aenter.1 =
      match (if h.called_aenter then h.managed_value else h.value.enter_result) with
      | Option.none => Except.error PyErr.notPossible
      | some v => Except.ok v := by
  by_cases hc : h.called_aenter
  · simp only [Holder.aenter, hc, if_true]
    cases h.managed_value <;> rfl
  · simp only [Holder.aenter, hc, if_false]
    cases h.value.enter_result <;> rfl

theorem Holder.aexit_snd (h : Holder K V) :
    h.aexit.2.1 = { h with count := h.count - 1 } := by
  by_cases hc : h.count - 1 < 0 <;> simp [Holder.aexit, hc]

theorem Holder.aexit_fst (h : Holder K V) :
    h.aexit.1 =
      if h.count - 1 < 0 then some PyErr.aexitTooMany else Option.none := by
  by_cases hc : h.count - 1 < 0 <;> simp [Holder.aexit, hc]

theorem Holder.aexit_zero (h : Holder K V) (hc : ¬ h.count - 1 < 0) :
    h.aexit.2.2 = (h.count - 1 == 0) := by
  simp [Holder.aexit, hc]

/-! ### The well-formedness invariant of reachable pool states -/

theorem WF.start : WF (PoolS.initial : PoolS A K V) := by
  constructor <;> simp [PoolS.initial, lookupK]

/-- In a well-formed state the instance dictionary maps distinct keys to
distinct holders. -/
theorem WF.hid_inj {s : PoolS A K V} (w : WF s) :
    ∀ p ∈ s.instances, ∀ q ∈ s.instances, p.2 = q.2 → p = q := by
  intro p hp q hq hpq
  have hlt := w.mapped_lt p hp
  obtain ⟨h, hh⟩ : ∃ h, s.holders[p.2]? = some h :=
    ⟨s.holders[p.2], List.getElem?_eq_getElem hlt⟩
  have hk1 := w.mapped_key p hp h hh
  have hk2 := w.mapped_key q hq h (hpq ▸ hh)
  have : p.1 = q.1 := by rw [← hk1, ← hk2]
  obtain ⟨p1, p2⟩ := p
  obtain ⟨q1, q2⟩ := q
  cases this
  cases hpq
  rfl

/-! ### Characterizations of the pool operations -/

theorem PoolS.get_of_some {keyFn : A → K} {getter : A → Option V} {s : PoolS A K V}
    {a : A} {hid : Nat} (hl : lookupK s.instances (keyFn a) = some hid) :
    PoolS.get keyFn getter s a = (hid, s.stop_timer (keyFn a)) := by
  simp [PoolS.get, PoolS.stop_timer, hl]

theorem PoolS.get_of_none {keyFn : A → K} {getter : A → Option V} {s : PoolS A K V}
    {a : A} (hl : lookupK s.instances (keyFn a) = Option.none) :
    PoolS.get keyFn getter s a =
      (s.holders.length,
       { instances := s.instances ++ [(keyFn a, s.holders.length)],
         timers := s.timers.filter (fun x => decide (x ≠ keyFn a)),
         holders := s.holders ++ [Holder.fresh (keyFn a) (getter a)],
         factory_log := s.factory_log ++ [a] }) := by
  simp [PoolS.get, PoolS.stop_timer, hl]

theorem PoolS.delete_of_none {s : PoolS A K V} {k : K}
    (hl : lookupK s.instances k = Option.none) :
    s.delete k = s.stop_timer k := by
  simp [PoolS.delete, PoolS.stop_timer, hl]

theorem PoolS.delete_of_some {s : PoolS A K V} {k : K} {hid : Nat} {h : Holder K V}
    (hl : lookupK s.instances k = some hid) (hh : s.holders[hid]? = some h) :
    s.delete k =
      { instances := eraseKey s.instances k,
        timers := s.timers.filter (fun x => decide (x ≠ k)),
        holders := s.holders.set hid h.close,
        factory_log := s.factory_log } := by
  simp [PoolS.delete, PoolS.stop_timer, hl, hh]

theorem PoolS.holder_aexit_of_nf {s : PoolS A K V} {hid : Nat}
    (hh : s.holders[hid]? = Option.none) :
    s.holder_aexit hid = (Option.none, s) := by
  simp [PoolS.holder_aexit, hh]

theorem PoolS.holder_aexit_of_neg {s : PoolS A K V} {hid : Nat} {h : Holder K V}
    (hh : s.holders[hid]? = some h) (hc : h.count ≤ 0) :
    s.holder_aexit hid =
      (some PyErr.aexitTooMany,
       { s with holders := s.holders.set hid { h with count := h.count - 1 } }) := by
  have h1 : h.aexit.1 = some PyErr.aexitTooMany := by
    rw [Holder.aexit_fst, if_pos (by omega)]
  simp [PoolS.holder_aexit, hh, h1, Holder.aexit_snd]

theorem PoolS.holder_aexit_of_one {s : PoolS A K V} {hid : Nat} {h : Holder K V}
    (hh : s.holders[hid]? = some h) (hc : h.count = 1) :
    s.holder_aexit hid =
      (Option.none,
       PoolS.mark_for_deletion
         { s with holders := s.holders.set hid { h with count := h.count - 1 } }
         h.key) := by
  have h1 : h.aexit.1 = Option.none := by
    rw [Holder.aexit_fst, if_neg (by omega)]
  have h2 : h.aexit.2.2 = true := by
    rw [Holder.aexit_zero h (by omega)]
    simp [hc]
  simp [PoolS.holder_aexit, hh, h1, h2, Holder.aexit_snd]

theorem PoolS.holder_aexit_of_ge {s : PoolS A K V} {hid : Nat} {h : Holder K V}
    (hh : s.holders[hid]? = some h) (hc : 2 ≤ h.count) :
    s.holder_aexit hid =
      (Option.none,
       { s with holders := s.holders.set hid { h with count := h.count - 1 } }) := by
  have h1 : h.aexit.1 = Option.none := by
    rw [Holder.aexit_fst, if_neg (by omega)]
  have h2 : h.aexit.2.2 = false := by
    rw [Holder.aexit_zero h (by omega)]
    simp only [beq_eq_false_iff_ne, ne_eq]
    omega
  simp [PoolS.holder_aexit, hh, h1, h2, Holder.aexit_snd]

/-! ### Preservation of the invariant -/

theorem WF.stop_timer_of_none {s : PoolS A K V} {k : K} (w : WF s)
    (hl : lookupK s.instances k = Option.none) : WF (s.stop_timer k) := by
  refine ⟨w.keys_nodup, w.mapped_lt, w.mapped_key, w.mapped_count, w.mapped_exit,
    w.exit_le, w.timers_nodup.filter _, ?_, ?_⟩
  · intro k' hk'
    exact w.timer_count k' (mem_filter_ne.mp hk').1
  · intro p hp h hh hz
    refine mem_filter_ne.mpr ⟨w.zero_timer p hp h hh hz, ?_⟩
    intro hpk
    exact (lookupK_eq_none_iff.mp hl p hp) hpk

theorem WF.delete {s : PoolS A K V} (w : WF s) (k : K) : WF (s.delete k) := by
  rcases hl : lookupK s.instances k with _ | hid
  · rw [PoolS.delete_of_none hl]
    exact w.stop_timer_of_none hl
  · have hmem := lookupK_some_mem hl
    have hlt := w.mapped_lt _ hmem
    obtain ⟨h, hh⟩ : ∃ h, s.holders[hid]? = some h :=
      ⟨s.holders[hid], List.getElem?_eq_getElem hlt⟩
    rw [PoolS.delete_of_some hl hh]
    have hne_hid : ∀ p ∈ s.instances, p.1 ≠ k → p.2 ≠ hid := by
      intro p hp hpk hph
      exact hpk (congrArg Prod.fst (w.hid_inj p hp (k, hid) hmem hph))
    constructor
    case keys_nodup =>
      exact w.keys_nodup.sublist (eraseKey_sublist.map Prod.fst)
    case mapped_lt =>
      intro p hp
      rw [List.length_set]
      exact w.mapped_lt p (mem_eraseKey.mp hp).1
    case mapped_key =>
      intro p hp h' hh'
      obtain ⟨hp1, hp2⟩ := mem_eraseKey.mp hp
      rw [List.getElem?_set_ne (Ne.symm (hne_hid p hp1 hp2))] at hh'
      exact w.mapped_key p hp1 h' hh'
    case mapped_count =>
      intro p hp h' hh'
      obtain ⟨hp1, hp2⟩ := mem_eraseKey.mp hp
      rw [List.getElem?_set_ne (Ne.symm (hne_hid p hp1 hp2))] at hh'
      exact w.mapped_count p hp1 h' hh'
    case mapped_exit =>
      intro p hp h' hh'
      obtain ⟨hp1, hp2⟩ := mem_eraseKey.mp hp
      rw [List.getElem?_set_ne (Ne.symm (hne_hid p hp1 hp2))] at hh'
      exact w.mapped_exit p hp1 h' hh'
    case exit_le =>
      intro h' hh'
      rcases List.mem_or_eq_of_mem_set hh' with hh' | hh'
      · exact w.exit_le h' hh'
      · subst hh'
        have := w.mapped_exit (k, hid) hmem h hh
        simp [Holder.close, this]
    case timers_nodup =>
      exact w.timers_nodup.filter _
    case timer_count =>
      intro k' hk'
      obtain ⟨hk1, hk2⟩ := mem_filter_ne.mp hk'
      obtain ⟨hid', h', hl', hh', hc'⟩ := w.timer_count k' hk1
      have hne : hid' ≠ hid := by
        intro he
        exact hk2 (congrArg Prod.fst
          (w.hid_inj (k', hid') (lookupK_some_mem hl') (k, hid) hmem (by rw [he])))
      exact ⟨hid', h', by rw [lookupK_eraseKey_ne hk2]; exact hl',
        by rw [List.getElem?_set_ne (Ne.symm hne)]; exact hh', hc'⟩
    case zero_timer =>
      intro p hp h' hh' hz
      obtain ⟨hp1, hp2⟩ := mem_eraseKey.mp hp
      rw [List.getElem?_set_ne (Ne.symm (hne_hid p hp1 hp2))] at hh'
      exact mem_filter_ne.mpr ⟨w.zero_timer p hp1 h' hh' hz, hp2⟩

/-! ### Characterizations of the transition function -/

theorem step_enter_of_none {keyFn : A → K} {getter : A → Option V} {s : PoolS A K V}
    {a : A} {v : V} (hl : lookupK s.instances (keyFn a) = Option.none)
    (hg : getter a = some v) :
    step keyFn getter s (Ev.enter a) =
      some { instances := s.instances ++ [(keyFn a, s.holders.length)],
             timers := s.timers.filter (fun x => decide (x ≠ keyFn a)),
             holders := s.holders ++
               [{ value := { enter_called := 1, exit_called := 0, enter_result := some v },
                  count := 1, called_aenter := true, managed_value := some v,
                  key := keyFn a }],
             factory_log := s.factory_log ++ [a] } := by
  have hset : (s.holders ++ [Holder.fresh (keyFn a) (getter a)]).set s.holders.length
      (Holder.fresh (keyFn a) (getter a)).aenter.2 =
      s.holders ++ [(Holder.fresh (keyFn a) (getter a)).aenter.2] := by
    rw [List.set_append_right _ _ (Nat.le_refl _)]
    simp
  have he : (Holder.fresh (keyFn a) (getter a) : Holder K V).aenter =
      (Except.ok v, (Holder.fresh (keyFn a) (getter a)).aenter.2) := by
    refine Prod.ext ?_ rfl
    rw [Holder.aenter_fst]
    simp [Holder.fresh, hg]
  simp only [step, PoolS.get_of_none hl, List.getElem?_concat_length]
  rw [he]
  dsimp only
  rw [hset]
  simp [Holder.aenter_snd, Holder.fresh, hg]

theorem step_enter_of_none_bad {keyFn : A → K} {getter : A → Option V}
    {s : PoolS A K V} {a : A} (hl : lookupK s.instances (keyFn a) = Option.none)
    (hg : getter a = Option.none) :
    step keyFn getter s (Ev.enter a) = Option.none := by
  have he : (Holder.fresh (keyFn a) (getter a) : Holder K V).aenter =
      (Except.error PyErr.notPossible, (Holder.fresh (keyFn a) (getter a)).aenter.2) := by
    refine Prod.ext ?_ rfl
    rw [Holder.aenter_fst]
    simp [Holder.fresh, hg]
  simp only [step, PoolS.get_of_none hl, List.getElem?_concat_length]
  rw [he]

theorem step_enter_of_some {keyFn : A → K} {getter : A → Option V} {s : PoolS A K V}
    {a : A} {hid : Nat} {h : Holder K V} {v : V}
    (hl : lookupK s.instances (keyFn a) = some hid) (hh : s.holders[hid]? = some h)
    (hv : (if h.called_aenter then h.managed_value else h.value.enter_result) = some v) :
    step keyFn getter s (Ev.enter a) =
      some { s with timers := s.timers.filter (fun x => decide (x ≠ keyFn a)),
                    holders := s.holders.set hid h.aenter.2 } := by
  have he : h.aenter = (Except.ok v, h.aenter.2) := by
    refine Prod.ext ?_ rfl
    rw [Holder.aenter_fst, hv]
  simp only [step, PoolS.get_of_some hl]
  rw [show (s.stop_timer (keyFn a)).holders[hid]? = some h from hh]
  dsimp only
  rw [he]
  dsimp only
  simp [PoolS.stop_timer]

theorem step_enter_of_some_bad {keyFn : A → K} {getter : A → Option V}
    {s : PoolS A K V} {a : A} {hid : Nat} {h : Holder K V}
    (hl : lookupK s.instances (keyFn a) = some hid) (hh : s.holders[hid]? = some h)
    (hv : (if h.called_aenter then h.managed_value else h.value.enter_result) =
      Option.none) :
    step keyFn getter s (Ev.enter a) = Option.none := by
  have he : h.aenter = (Except.error PyErr.notPossible, h.aenter.2) := by
    refine Prod.ext ?_ rfl
    rw [Holder.aenter_fst, hv]
  simp only [step, PoolS.get_of_some hl]
  rw [show (s.stop_timer (keyFn a)).holders[hid]? = some h from hh]
  dsimp only
  rw [he]

theorem step_exit_of_none {keyFn : A → K} {getter : A → Option V} {s : PoolS A K V}
    {k : K} (hl : lookupK s.instances k = Option.none) :
    step keyFn getter s (Ev.exitScope k) = Option.none := by
  simp [step, hl]

theorem step_exit_of_neg {keyFn : A → K} {getter : A → Option V} {s : PoolS A K V}
    {k : K} {hid : Nat} {h : Holder K V}
    (hl : lookupK s.instances k = some hid) (hh : s.holders[hid]? = some h)
    (hc : h.count ≤ 0) :
    step keyFn getter s (Ev.exitScope k) = Option.none := by
  simp [step, hl, PoolS.holder_aexit_of_neg hh hc]

theorem step_exit_of_one {keyFn : A → K} {getter : A → Option V} {s : PoolS A K V}
    {k : K} {hid : Nat} {h : Holder K V}
    (hl : lookupK s.instances k = some hid) (hh : s.holders[hid]? = some h)
    (hc : h.count = 1) :
    step keyFn getter s (Ev.exitScope k) =
      some (PoolS.mark_for_deletion
        { s with holders := s.holders.set hid { h with count := h.count - 1 } }
        h.key) := by
  simp [step, hl, PoolS.holder_aexit_of_one hh hc]

theorem step_exit_of_ge {keyFn : A → K} {getter : A → Option V} {s : PoolS A K V}
    {k : K} {hid : Nat} {h : Holder K V}
    (hl : lookupK s.instances k = some hid) (hh : s.holders[hid]? = some h)
    (hc : 2 ≤ h.count) :
    step keyFn getter s (Ev.exitScope k) =
      some { s with holders := s.holders.set hid { h with count := h.count - 1 } } := by
  simp [step, hl, PoolS.holder_aexit_of_ge hh hc]

theorem step_fire_of_mem {keyFn : A → K} {getter : A → Option V} {s : PoolS A K V}
    {k : K} (hk : k ∈ s.timers) :
    step keyFn getter s (Ev.fire k) = some (s.delete k) := by
  simp [step, hk]

theorem step_fire_of_nmem {keyFn : A → K} {getter : A → Option V} {s : PoolS A K V}
    {k : K} (hk : k ∉ s.timers) :
    step keyFn getter s (Ev.fire k) = Option.none := by
  simp [step, hk]

theorem step_shutdown {keyFn : A → K} {getter : A → Option V} {s : PoolS A K V} :
    step keyFn getter s Ev.shutdown = some s.shutdown := rfl

/-! ### Preservation of the invariant by every transition -/

theorem Holder.aenter_snd_key (h : Holder K V) : h.aenter.2.key = h.key := by
  rw [Holder.aenter_snd]; split <;> rfl

theorem Holder.aenter_snd_count (h : Holder K V) : h.aenter.2.count = h.count + 1 := by
  rw [Holder.aenter_snd]; split <;> rfl

theorem Holder.aenter_snd_exit (h : Holder K V) :
    h.aenter.2.value.exit_called = h.value.exit_called := by
  rw [Holder.aenter_snd]; split <;> rfl

theorem not_mem_keys_of_lookup_none {m : List (K × Nat)} {k : K}
    (hl : lookupK m k = Option.none) : k ∉ m.map Prod.fst := by
  intro hk
  obtain ⟨p, hp, hpk⟩ := List.mem_map.mp hk
  exact lookupK_eq_none_iff.mp hl p hp hpk

theorem WF.foldl_delete {s : PoolS A K V} (w : WF s) (ks : List K) :
    WF (ks.foldl PoolS.delete s) := by
  induction ks generalizing s with
  | nil => exact w
  | cons k ks ih => exact ih (w.delete k)

theorem WF.enter_new {s : PoolS A K V} (w : WF s) {k : K} {v : V} {log : List A}
    (hl : lookupK s.instances k = Option.none) :
    WF { instances := s.instances ++ [(k, s.holders.length)],
         timers := s.timers.filter (fun x => decide (x ≠ k)),
         holders := s.holders ++
           [{ value := { enter_called := 1, exit_called := 0, enter_result := some v },
              count := 1, called_aenter := true, managed_value := some v, key := k }],
         factory_log := log } := by
  have hkn := not_mem_keys_of_lookup_none hl
  constructor
  case keys_nodup =>
    rw [List.map_append]
    simp [List.nodup_append, w.keys_nodup, hkn]
  case mapped_lt =>
    intro p hp
    rw [List.length_append]
    rcases List.mem_append.mp hp with hp | hp
    · have := w.mapped_lt p hp
      omega
    · simp only [List.mem_singleton] at hp
      subst hp
      simp
  case mapped_key =>
    intro p hp h hh
    rcases List.mem_append.mp hp with hp | hp
    · rw [List.getElem?_append_left (w.mapped_lt p hp)] at hh
      exact w.mapped_key p hp h hh
    · simp only [List.mem_singleton] at hp
      subst hp
      rw [List.getElem?_concat_length] at hh
      cases hh
      rfl
  case mapped_count =>
    intro p hp h hh
    rcases List.mem_append.mp hp with hp | hp
    · rw [List.getElem?_append_left (w.mapped_lt p hp)] at hh
      exact w.mapped_count p hp h hh
    · simp only [List.mem_singleton] at hp
      subst hp
      rw [List.getElem?_concat_length] at hh
      cases hh
      norm_num
  case mapped_exit =>
    intro p hp h hh
    rcases List.mem_append.mp hp with hp | hp
    · rw [List.getElem?_append_left (w.mapped_lt p hp)] at hh
      exact w.mapped_exit p hp h hh
    · simp only [List.mem_singleton] at hp
      subst hp
      rw [List.getElem?_concat_length] at hh
      cases hh
      rfl
  case exit_le =>
    intro h hh
    rcases List.mem_append.mp hh with hh | hh
    · exact w.exit_le h hh
    · simp only [List.mem_singleton] at hh
      subst hh
      norm_num
  case timers_nodup =>
    exact w.timers_nodup.filter _
  case timer_count =>
    intro k' hk'
    obtain ⟨hk1, _⟩ := mem_filter_ne.mp hk'
    obtain ⟨hid', h', hl', hh', hc'⟩ := w.timer_count k' hk1
    refine ⟨hid', h', ?_, ?_, hc'⟩
    · rw [lookupK_append, hl']
      rfl
    · rw [List.getElem?_append_left (w.mapped_lt _ (lookupK_some_mem hl'))]
      exact hh'
  case zero_timer =>
    intro p hp h hh hz
    rcases List.mem_append.mp hp with hp | hp
    · rw [List.getElem?_append_left (w.mapped_lt p hp)] at hh
      refine mem_filter_ne.mpr ⟨w.zero_timer p hp h hh hz, ?_⟩
      intro hpk
      exact lookupK_eq_none_iff.mp hl p hp hpk
    · simp only [List.mem_singleton] at hp
      subst hp
      rw [List.getElem?_concat_length] at hh
      cases hh
      cases hz

theorem WF.enter_old {s : PoolS A K V} (w : WF s) {k : K} {hid : Nat} {h : Holder K V}
    (hl : lookupK s.instances k = some hid) (hh : s.holders[hid]? = some h) :
    WF { s with timers := s.timers.filter (fun x => decide (x ≠ k)),
                holders := s.holders.set hid h.aenter.2 } := by
  have hmem := lookupK_some_mem hl
  have hcnt := w.mapped_count (k, hid) hmem h hh
  have hne_hid : ∀ p ∈ s.instances, p.1 ≠ k → p.2 ≠ hid := by
    intro p hp hpk hph
    exact hpk (congrArg Prod.fst (w.hid_inj p hp (k, hid) hmem hph))
  constructor
  case keys_nodup => exact w.keys_nodup
  case mapped_lt =>
    intro p hp
    rw [List.length_set]
    exact w.mapped_lt p hp
  case mapped_key =>
    intro p hp h' hh'
    by_cases hph : p.2 = hid
    · have hpk : p = (k, hid) := w.hid_inj p hp (k, hid) hmem hph
      rw [hph, List.getElem?_set_eq_of_lt _ (w.mapped_lt _ hmem)] at hh'
      cases hh'
      rw [Holder.aenter_snd_key, w.mapped_key (k, hid) hmem h hh, hpk]
    · rw [List.getElem?_set_ne (Ne.symm hph)] at hh'
      exact w.mapped_key p hp h' hh'
  case mapped_count =>
    intro p hp h' hh'
    by_cases hph : p.2 = hid
    · rw [hph, List.getElem?_set_eq_of_lt _ (w.mapped_lt _ hmem)] at hh'
      cases hh'
      rw [Holder.aenter_snd_count]
      omega
    · rw [List.getElem?_set_ne (Ne.symm hph)] at hh'
      exact w.mapped_count p hp h' hh'
  case mapped_exit =>
    intro p hp h' hh'
    by_cases hph : p.2 = hid
    · rw [hph, List.getElem?_set_eq_of_lt _ (w.mapped_lt _ hmem)] at hh'
      cases hh'
      rw [Holder.aenter_snd_exit]
      exact w.mapped_exit (k, hid) hmem h hh
    · rw [List.getElem?_set_ne (Ne.symm hph)] at hh'
      exact w.mapped_exit p hp h' hh'
  case exit_le =>
    intro h' hh'
    rcases List.mem_or_eq_of_mem_set hh' with hh' | hh'
    · exact w.exit_le h' hh'
    · subst hh'
      rw [Holder.aenter_snd_exit]
      exact w.exit_le h (List.getElem?_mem hh)
  case timers_nodup => exact w.timers_nodup.filter _
  case timer_count =>
    intro k' hk'
    obtain ⟨hk1, hk2⟩ := mem_filter_ne.mp hk'
    obtain ⟨hid', h', hl', hh', hc'⟩ := w.timer_count k' hk1
    have hne : hid' ≠ hid :=
      hne_hid (k', hid') (lookupK_some_mem hl') hk2
    exact ⟨hid', h', hl', by rw [List.getElem?_set_ne (Ne.symm hne)]; exact hh', hc'⟩
  case zero_timer =>
    intro p hp h' hh' hz
    by_cases hph : p.2 = hid
    · rw [hph, List.getElem?_set_eq_of_lt _ (w.mapped_lt _ hmem)] at hh'
      cases hh'
      rw [Holder.aenter_snd_count] at hz
      omega
    · rw [List.getElem?_set_ne (Ne.symm hph)] at hh'
      refine mem_filter_ne.mpr ⟨w.zero_timer p hp h' hh' hz, ?_⟩
      intro hpk
      exact hph (congrArg Prod.snd
        (nodup_keys_eq w.keys_nodup p hp (k, hid) hmem (by rw [hpk])))

theorem WF.exit_ge {s : PoolS A K V} (w : WF s) {k : K} {hid : Nat} {h : Holder K V}
    (hl : lookupK s.instances k = some hid) (hh : s.holders[hid]? = some h)
    (hc : 2 ≤ h.count) :
    WF { s with holders := s.holders.set hid { h with count := h.count - 1 } } := by
  have hmem := lookupK_some_mem hl
  constructor
  case keys_nodup => exact w.keys_nodup
  case mapped_lt =>
    intro p hp
    rw [List.length_set]
    exact w.mapped_lt p hp
  case mapped_key =>
    intro p hp h' hh'
    by_cases hph : p.2 = hid
    · have hpk : p = (k, hid) := w.hid_inj p hp (k, hid) hmem hph
      rw [hph, List.getElem?_set_eq_of_lt _ (w.mapped_lt _ hmem)] at hh'
      cases hh'
      rw [show ({ h with count := h.count - 1 } : Holder K V).key = h.key from rfl,
        w.mapped_key (k, hid) hmem h hh, hpk]
    · rw [List.getElem?_set_ne (Ne.symm hph)] at hh'
      exact w.mapped_key p hp h' hh'
  case mapped_count =>
    intro p hp h' hh'
    by_cases hph : p.2 = hid
    · rw [hph, List.getElem?_set_eq_of_lt _ (w.mapped_lt _ hmem)] at hh'
      cases hh'
      show (0 : Int) ≤ h.count - 1
      omega
    · rw [List.getElem?_set_ne (Ne.symm hph)] at hh'
      exact w.mapped_count p hp h' hh'
  case mapped_exit =>
    intro p hp h' hh'
    by_cases hph : p.2 = hid
    · rw [hph, List.getElem?_set_eq_of_lt _ (w.mapped_lt _ hmem)] at hh'
      cases hh'
      exact w.mapped_exit (k, hid) hmem h hh
    · rw [List.getElem?_set_ne (Ne.symm hph)] at hh'
      exact w.mapped_exit p hp h' hh'
  case exit_le =>
    intro h' hh'
    rcases List.mem_or_eq_of_mem_set hh' with hh' | hh'
    · exact w.exit_le h' hh'
    · subst hh'
      exact w.exit_le h (List.getElem?_mem hh)
  case timers_nodup => exact w.timers_nodup
  case timer_count =>
    intro k' hk'
    obtain ⟨hid', h', hl', hh', hc'⟩ := w.timer_count k' hk'
    have hne : hid' ≠ hid := by
      intro he
      rw [he, hh] at hh'
      cases hh'
      omega
    exact ⟨hid', h', hl', by rw [List.getElem?_set_ne (Ne.symm hne)]; exact hh', hc'⟩
  case zero_timer =>
    intro p hp h' hh' hz
    by_cases hph : p.2 = hid
    · rw [hph, List.getElem?_set_eq_of_lt _ (w.mapped_lt _ hmem)] at hh'
      cases hh'
      simp only at hz
      omega
    · rw [List.getElem?_set_ne (Ne.symm hph)] at hh'
      exact w.zero_timer p hp h' hh' hz

theorem WF.exit_one {s : PoolS A K V} (w : WF s) {k : K} {hid : Nat} {h : Holder K V}
    (hl : lookupK s.instances k = some hid) (hh : s.holders[hid]? = some h)
    (hc : h.count = 1) :
    WF (PoolS.mark_for_deletion
      { s with holders := s.holders.set hid { h with count := h.count - 1 } }
      h.key) := by
  have hmem := lookupK_some_mem hl
  have hkey : h.key = k := w.mapped_key (k, hid) hmem h hh
  subst hkey
  have hne_hid : ∀ p ∈ s.instances, p.1 ≠ h.key → p.2 ≠ hid := by
    intro p hp hpk hph
    exact hpk (congrArg Prod.fst (w.hid_inj p hp (h.key, hid) hmem hph))
  show WF { instances := s.instances,
            timers := s.timers.filter (fun x => decide (x ≠ h.key)) ++ [h.key],
            holders := s.holders.set hid { h with count := h.count - 1 },
            factory_log := s.factory_log }
  constructor
  case keys_nodup => exact w.keys_nodup
  case mapped_lt =>
    intro p hp
    rw [List.length_set]
    exact w.mapped_lt p hp
  case mapped_key =>
    intro p hp h' hh'
    by_cases hph : p.2 = hid
    · have hpk : p = (h.key, hid) := w.hid_inj p hp (h.key, hid) hmem hph
      rw [hph, List.getElem?_set_eq_of_lt _ (w.mapped_lt _ hmem)] at hh'
      cases hh'
      rw [show ({ h with count := h.count - 1 } : Holder K V).key = h.key from rfl, hpk]
    · rw [List.getElem?_set_ne (Ne.symm hph)] at hh'
      exact w.mapped_key p hp h' hh'
  case mapped_count =>
    intro p hp h' hh'
    by_cases hph : p.2 = hid
    · rw [hph, List.getElem?_set_eq_of_lt _ (w.mapped_lt _ hmem)] at hh'
      cases hh'
      show (0 : Int) ≤ h.count - 1
      omega
    · rw [List.getElem?_set_ne (Ne.symm hph)] at hh'
      exact w.mapped_count p hp h' hh'
  case mapped_exit =>
    intro p hp h' hh'
    by_cases hph : p.2 = hid
    · rw [hph, List.getElem?_set_eq_of_lt _ (w.mapped_lt _ hmem)] at hh'
      cases hh'
      exact w.mapped_exit (h.key, hid) hmem h hh
    · rw [List.getElem?_set_ne (Ne.symm hph)] at hh'
      exact w.mapped_exit p hp h' hh'
  case exit_le =>
    intro h' hh'
    rcases List.mem_or_eq_of_mem_set hh' with hh' | hh'
    · exact w.exit_le h' hh'
    · subst hh'
      exact w.exit_le h (List.getElem?_mem hh)
  case timers_nodup =>
    simp [List.nodup_append, w.timers_nodup.filter _, mem_filter_ne]
  case timer_count =>
    intro k' hk'
    rcases List.mem_append.mp hk' with hk1 | hk1
    · obtain ⟨hk2, hk3⟩ := mem_filter_ne.mp hk1
      obtain ⟨hid', h', hl', hh', hc'⟩ := w.timer_count k' hk2
      have hne : hid' ≠ hid :=
        hne_hid (k', hid') (lookupK_some_mem hl') hk3
      exact ⟨hid', h', hl',
        by rw [List.getElem?_set_ne (Ne.symm hne)]; exact hh', hc'⟩
    · simp only [List.mem_singleton] at hk1
      subst hk1
      refine ⟨hid, { h with count := h.count - 1 }, hl, ?_, by simp [hc]⟩
      rw [List.getElem?_set_eq_of_lt _ (w.mapped_lt _ hmem)]
  case zero_timer =>
    intro p hp h' hh' hz
    by_cases hph : p.2 = hid
    · have hpk : p = (h.key, hid) := w.hid_inj p hp (h.key, hid) hmem hph
      rw [hpk]
      simp
    · rw [List.getElem?_set_ne (Ne.symm hph)] at hh'
      have hpk : p.1 ≠ h.key := by
        intro hpk
        exact hph (congrArg Prod.snd
          (nodup_keys_eq w.keys_nodup p hp (h.key, hid) hmem (by rw [hpk])))
      exact List.mem_append.mpr (Or.inl
        (mem_filter_ne.mpr ⟨w.zero_timer p hp h' hh' hz, hpk⟩))

/-- Every transition preserves the invariant. -/
theorem WF.step_preserved {keyFn : A → K} {getter : A → Option V}
    {s s' : PoolS A K V} {e : Ev A K} (w : WF s)
    (hs : step keyFn getter s e = some s') : WF s' := by
  cases e with
  | fire k =>
      by_cases hk : k ∈ s.timers
      · rw [step_fire_of_mem hk] at hs
        obtain rfl := Option.some.inj hs
        exact w.delete k
      · rw [step_fire_of_nmem hk] at hs
        cases hs
  | shutdown =>
      rw [step_shutdown] at hs
      obtain rfl := Option.some.inj hs
      exact w.foldl_delete _
  | enter a =>
      rcases hl : lookupK s.instances (keyFn a) with _ | hid
      · rcases hg : getter a with _ | v
        · rw [step_enter_of_none_bad hl hg] at hs
          cases hs
        · rw [step_enter_of_none hl hg] at hs
          obtain rfl := Option.some.inj hs
          exact w.enter_new hl
      · have hmem := lookupK_some_mem hl
        have hlt := w.mapped_lt _ hmem
        obtain ⟨h, hh⟩ : ∃ h, s.holders[hid]? = some h :=
          ⟨s.holders[hid], List.getElem?_eq_getElem hlt⟩
        rcases hv : (if h.called_aenter then h.managed_value else h.value.enter_result)
          with _ | v
        · rw [step_enter_of_some_bad hl hh hv] at hs
          cases hs
        · rw [step_enter_of_some hl hh hv] at hs
          obtain rfl := Option.some.inj hs
          exact w.enter_old hl hh
  | exitScope k =>
      rcases hl : lookupK s.instances k with _ | hid
      · rw [step_exit_of_none hl] at hs
        cases hs
      · have hmem := lookupK_some_mem hl
        have hlt := w.mapped_lt _ hmem
        obtain ⟨h, hh⟩ : ∃ h, s.holders[hid]? = some h :=
          ⟨s.holders[hid], List.getElem?_eq_getElem hlt⟩
        by_cases hc0 : h.count ≤ 0
        · rw [step_exit_of_neg hl hh hc0] at hs
          cases hs
        · by_cases hc1 : h.count = 1
          · rw [step_exit_of_one hl hh hc1] at hs
            obtain rfl := Option.some.inj hs
            exact w.exit_one hl hh hc1
          · have hc2 : 2 ≤ h.count := by omega
            rw [step_exit_of_ge hl hh hc2] at hs
            obtain rfl := Option.some.inj hs
            exact w.exit_ge hl hh hc2

/-- Every reachable pool state is well-formed. -/
theorem Reach.wf {keyFn : A → K} {getter : A → Option V} {s : PoolS A K V}
    (hr : Reach keyFn getter s) : WF s := by
  induction hr with
  | base => exact WF.start
  | next _ hs ih => exact ih.step_preserved hs

/-! ### The effect of pool shutdown -/

theorem PoolS.delete_of_nf {s : PoolS A K V} {k : K} {hid : Nat}
    (hl : lookupK s.instances k = some hid) (hh : s.holders[hid]? = Option.none) :
    s.delete k =
      { instances := eraseKey s.instances k,
        timers := s.timers.filter (fun x => decide (x ≠ k)),
        holders := s.holders,
        factory_log := s.factory_log } := by
  simp [PoolS.delete, PoolS.stop_timer, hl, hh]

theorem delete_instances_eq {s : PoolS A K V} {k : K} :
    (s.delete k).instances = eraseKey s.instances k := by
  rcases hl : lookupK s.instances k with _ | hid
  · rw [PoolS.delete_of_none hl, eraseKey_eq_self hl]
    rfl
  · rcases hh : s.holders[hid]? with _ | h
    · rw [PoolS.delete_of_nf hl hh]
    · rw [PoolS.delete_of_some hl hh]

theorem delete_timers_eq {s : PoolS A K V} {k : K} :
    (s.delete k).timers = s.timers.filter (fun x => decide (x ≠ k)) := by
  rcases hl : lookupK s.instances k with _ | hid
  · rw [PoolS.delete_of_none hl]
    rfl
  · rcases hh : s.holders[hid]? with _ | h
    · rw [PoolS.delete_of_nf hl hh]
    · rw [PoolS.delete_of_some hl hh]

theorem delete_holders_ne {s : PoolS A K V} {k : K} {hid' : Nat}
    (hne : ∀ hid, lookupK s.instances k = some hid → hid' ≠ hid) :
    (s.delete k).holders[hid']? = s.holders[hid']? := by
  rcases hl : lookupK s.instances k with _ | hid
  · rw [PoolS.delete_of_none hl]
    rfl
  · rcases hh : s.holders[hid]? with _ | h
    · rw [PoolS.delete_of_nf hl hh]
    · rw [PoolS.delete_of_some hl hh]
      exact List.getElem?_set_ne (Ne.symm (hne hid hl))

theorem foldl_delete_timers {s : PoolS A K V} (ks : List K) :
    (ks.foldl PoolS.delete s).timers =
      s.timers.filter (fun x => decide (x ∉ ks)) := by
  induction ks generalizing s with
  | nil => simp
  | cons k ks ih =>
      rw [List.foldl_cons, ih, delete_timers_eq, List.filter_filter]
      refine List.filter_congr ?_
      intro x _
      by_cases h1 : x = k <;> by_cases h2 : x ∈ ks <;> simp [h1, h2]

theorem foldl_delete_instances {s : PoolS A K V} (ks : List K) :
    (ks.foldl PoolS.delete s).instances =
      s.instances.filter (fun p => decide (p.1 ∉ ks)) := by
  induction ks generalizing s with
  | nil => simp
  | cons k ks ih =>
      rw [List.foldl_cons, ih, delete_instances_eq, eraseKey, List.filter_filter]
      refine List.filter_congr ?_
      intro p _
      by_cases h1 : p.1 = k <;> by_cases h2 : p.1 ∈ ks <;> simp [h1, h2]

theorem foldl_delete_unmapped {hid : Nat} (ks : List K) :
    ∀ {s : PoolS A K V}, (∀ p ∈ s.instances, p.2 ≠ hid) →
    (ks.foldl PoolS.delete s).holders[hid]? = s.holders[hid]? := by
  induction ks with
  | nil => intro s _; rfl
  | cons k ks ih =>
      intro s hs
      rw [List.foldl_cons]
      have h1 : (s.delete k).holders[hid]? = s.holders[hid]? := by
        refine delete_holders_ne ?_
        intro hid' hl'
        exact Ne.symm (hs _ (lookupK_some_mem hl'))
      rw [← h1]
      refine ih ?_
      intro p hp
      rw [delete_instances_eq] at hp
      exact hs p (mem_eraseKey.mp hp).1

theorem foldl_delete_close (ks : List K) :
    ∀ {s : PoolS A K V}, WF s → ∀ p ∈ s.instances, ∀ h : Holder K V,
    s.holders[p.2]? = some h → p.1 ∈ ks →
    (ks.foldl PoolS.delete s).holders[p.2]? = some h.close := by
  induction ks with
  | nil =>
      intro s _ p _ h _ hmem
      cases hmem
  | cons k ks ih =>
      intro s w p hp h hh hmem
      rw [List.foldl_cons]
      by_cases hk : k = p.1
      · subst hk
        have hl : lookupK s.instances p.1 = some p.2 :=
          lookupK_of_mem_nodup w.keys_nodup hp
        have hdel := PoolS.delete_of_some hl hh
        have hset : (s.delete p.1).holders[p.2]? = some h.close := by
          rw [hdel]
          exact List.getElem?_set_eq_of_lt _ (w.mapped_lt p hp)
        rw [foldl_delete_unmapped ks]
        · exact hset
        · intro q hq hq2
          rw [delete_instances_eq] at hq
          obtain ⟨hq1, hqne⟩ := mem_eraseKey.mp hq
          exact hqne (congrArg Prod.fst (w.hid_inj q hq1 p hp hq2))
      · have hp' : p ∈ (s.delete k).instances := by
          rw [delete_instances_eq]
          exact mem_eraseKey.mpr ⟨hp, fun hpk => hk hpk.symm⟩
        have hh' : (s.delete k).holders[p.2]? = some h := by
          rw [delete_holders_ne]
          · exact hh
          · intro hid' hl' he
            exact hk (congrArg Prod.fst
              (w.hid_inj (k, hid') (lookupK_some_mem hl') p hp he.symm))
        have hmem' : p.1 ∈ ks := by
          rcases List.mem_cons.mp hmem with hc | hc
          · exact absurd hc.symm hk
          · exact hc
        exact ih (w.delete k) p hp' h hh' hmem'

theorem shutdown_instances {s : PoolS A K V} :
    (s.shutdown).instances = [] := by
  rw [PoolS.shutdown, foldl_delete_instances]
  refine List.filter_eq_nil_iff.mpr ?_
  intro p hp
  simp [List.mem_map_of_mem Prod.fst hp]

theorem shutdown_timers {s : PoolS A K V} (w : WF s) :
    (s.shutdown).timers = [] := by
  rw [PoolS.shutdown, foldl_delete_timers]
  refine List.filter_eq_nil_iff.mpr ?_
  intro k hk
  obtain ⟨hid, h, hl, _, _⟩ := w.timer_count k hk
  simp [List.mem_map_of_mem Prod.fst (lookupK_some_mem hl)]

theorem shutdown_closes {s : PoolS A K V} (w : WF s) :
    ∀ p ∈ s.instances, ∀ h : Holder K V, s.holders[p.2]? = some h →
    (s.shutdown).holders[p.2]? = some h.close := by
  intro p hp h hh
  rw [PoolS.shutdown]
  exact foldl_delete_close _ w p hp h hh (List.mem_map_of_mem Prod.fst hp)

/-! ### Holder lifecycle under sequences of acquisitions and releases -/

theorem InvH.fresh (k : K) (v : V) : InvH (Holder.fresh k (some v)) v := by
  refine ⟨rfl, rfl, ?_⟩
  intro hc
  cases hc

theorem InvH.aenter {h : Holder K V} {v : V} (hi : InvH h v) :
    InvH h.aenter.2 v ∧ h.aenter.1 = Except.ok v ∧
      h.aenter.2.value.enter_called = 1 := by
  obtain ⟨h1, h2, h3⟩ := hi
  by_cases hc : h.called_aenter
  · have hm := h3 hc
    refine ⟨⟨?_, ?_, ?_⟩, ?_, ?_⟩ <;>
      simp [InvH, Holder.aenter_snd, Holder.aenter_fst, hc, hm, h1, h2]
  · refine ⟨⟨?_, ?_, ?_⟩, ?_, ?_⟩ <;>
      simp [InvH, Holder.aenter_snd, Holder.aenter_fst, hc, h1, h2]

theorem InvH.aexit {h : Holder K V} {v : V} (hi : InvH h v) :
    InvH h.aexit.2.1 v := by
  obtain ⟨h1, h2, h3⟩ := hi
  rw [Holder.aexit_snd]
  exact ⟨h1, h2, h3⟩

theorem InvH.runH {h : Holder K V} {v : V} (hi : InvH h v) (es : List HEv) :
    InvH (runH h es) v := by
  induction es generalizing h with
  | nil => exact hi
  | cons e es ih =>
      cases e with
      | acq => exact ih hi.aenter.1
      | rel => exact ih hi.aexit

theorem runH_called (h : Holder K V) (es : List HEv) :
    (runH h es).called_aenter = true ↔
      (h.called_aenter = true ∨ HEv.acq ∈ es) := by
  induction es generalizing h with
  | nil => simp [runH]
  | cons e es ih =>
      cases e with
      | acq =>
          rw [show runH h (HEv.acq :: es) = runH h.aenter.2 es from rfl, ih]
          have : h.aenter.2.called_aenter = true := by
            rw [Holder.aenter_snd]
            split <;> simp_all
          simp [this]
      | rel =>
          rw [show runH h (HEv.rel :: es) = runH h.aexit.2.1 es from rfl, ih,
            Holder.aexit_snd]
          simp

/-- Closed form of iterated acquisition of a holder whose resource's entry
returns `None`. -/
theorem aenterN_none (k : K) :
    ∀ n, aenterN (Holder.fresh k (Option.none : Option V)) n =
      if n = 0 then Holder.fresh k Option.none
      else
        { value := { enter_called := 1, exit_called := 0,
                     enter_result := Option.none },
          count := (n : Int), called_aenter := true,
          managed_value := Option.none, key := k } := by
  intro n
  induction n with
  | zero => rfl
  | succ n ih =>
      rw [show aenterN (Holder.fresh k (Option.none : Option V)) (n + 1) =
        (aenterN (Holder.fresh k Option.none) n).aenter.2 from rfl, ih]
      by_cases hn : n = 0
      · subst hn
        rw [if_pos rfl, if_neg (Nat.succ_ne_zero 0)]
        rw [Holder.aenter_snd]
        simp [Holder.fresh]
      · rw [if_neg hn, if_neg (Nat.succ_ne_zero n)]
        rw [Holder.aenter_snd]
        simp

/-! ### First error raised by a sequence of acquisitions and releases -/

theorem runHE_excess :
    ∀ (es : List HEv) (h : Holder K V) (v : V),
    h.value.enter_result = some v →
    (h.called_aenter = true → h.managed_value = some v) →
    0 ≤ h.count →
    (∃ i, (h.count + ((es.take i).count HEv.acq : Int)) <
      ((es.take i).count HEv.rel : Int)) →
    runHE h es = some PyErr.aexitTooMany := by
  intro es
  induction es with
  | nil =>
      intro h v _ _ hc ⟨i, hi⟩
      simp at hi
      omega
  | cons e es ih =>
      intro h v h1 h3 hc ⟨i, hi⟩
      cases e with
      | acq =>
          have hok : h.aenter = (Except.ok v, h.aenter.2) := by
            refine Prod.ext ?_ rfl
            rw [Holder.aenter_fst]
            by_cases hca : h.called_aenter
            · rw [if_pos hca, h3 hca]
            · rw [if_neg hca, h1]
          rw [show runHE h (HEv.acq :: es) =
            (match h.aenter with
             | (Except.error e, _) => some e
             | (Except.ok _, h') => runHE h' es) from rfl, hok]
          have hsnd := Holder.aenter_snd h
          refine ih h.aenter.2 v ?_ ?_ ?_ ?_
          · rw [hsnd]; split <;> exact h1
          · intro _
            rw [hsnd]
            split
            · next hca => rw [h3 hca]
            · exact h1
          · rw [Holder.aenter_snd_count]; omega
          · rcases i with _ | j
            · exfalso
              simp at hi
              omega
            · refine ⟨j, ?_⟩
              rw [Holder.aenter_snd_count]
              rw [List.take_succ_cons, List.count_cons, List.count_cons] at hi
              simp at hi
              omega
      | rel =>
          by_cases hzero : h.count = 0
          · have herr : h.aexit.1 = some PyErr.aexitTooMany := by
              rw [Holder.aexit_fst, if_pos (by omega)]
            rw [show runHE h (HEv.rel :: es) =
              (match h.aexit with
               | (some e, _, _) => some e
               | (Option.none, h', _) => runHE h' es) from rfl]
            rcases hax : h.aexit with ⟨e, h', z⟩
            rw [hax] at herr
            cases herr
            rfl
          · have hpos : 1 ≤ h.count := by omega
            have hok : h.aexit = (Option.none, h.aexit.2.1, h.aexit.2.2) := by
              refine Prod.ext ?_ rfl
              rw [Holder.aexit_fst, if_neg (by omega)]
            rw [show runHE h (HEv.rel :: es) =
              (match h.aexit with
               | (some e, _, _) => some e
               | (Option.none, h', _) => runHE h' es) from rfl, hok]
            have hsnd := Holder.aexit_snd h
            refine ih h.aexit.2.1 v ?_ ?_ ?_ ?_
            · rw [hsnd]; exact h1
            · rw [hsnd]; exact h3
            · rw [hsnd]; show (0 : Int) ≤ h.count - 1; omega
            · rcases i with _ | j
              · exfalso
                simp at hi
                omega
              · refine ⟨j, ?_⟩
                rw [hsnd]
                rw [List.take_succ_cons, List.count_cons, List.count_cons] at hi
                simp at hi
                push_cast at hi ⊢
                omega

/-! ### Key derivation is invariant under named-argument reordering -/

theorem find?_key_perm {kw1 kw2 : List (String × PyObj)} (hp : kw1.Perm kw2)
    (nd : (kw1.map Prod.fst).Nodup) (k : String) :
    kw1.find? (fun p => p.1 == k) = kw2.find? (fun p => p.1 == k) := by
  rcases hf1 : kw1.find? (fun p => p.1 == k) with _ | p
  · rw [hf1]
    symm
    rw [List.find?_eq_none] at hf1
    rw [List.find?_eq_none]
    intro p hp2
    exact hf1 p (hp.mem_iff.mpr hp2)
  · have hpm : p ∈ kw2 := hp.mem_iff.mp (List.mem_of_find?_eq_some hf1)
    have hpk := List.find?_some hf1
    have hsome : (kw2.find? (fun p => p.1 == k)).isSome := by
      rw [List.find?_isSome]
      exact ⟨p, hpm, hpk⟩
    rcases hf2 : kw2.find? (fun p => p.1 == k) with _ | q
    · rw [hf2] at hsome
      cases hsome
    · have hqm : q ∈ kw2 := List.mem_of_find?_eq_some hf2
      have hqk := List.find?_some hf2
      have nd2 : (kw2.map Prod.fst).Nodup := ((hp.map Prod.fst).nodup_iff).mp nd
      have : q = p := by
        refine nodup_keys_eq nd2 q hqm p hpm ?_
        rw [eq_of_beq hqk, eq_of_beq hpk]
      rw [hf1, hf2, this]

theorem kwLookup_perm {kw1 kw2 : List (String × PyObj)} (hp : kw1.Perm kw2)
    (nd : (kw1.map Prod.fst).Nodup) (k : String) :
    kwLookup kw1 k = kwLookup kw2 k := by
  unfold kwLookup
  rw [find?_key_perm hp nd k]

theorem foldr_keys_congr {kw1 kw2 : List (String × PyObj)}
    (hl : ∀ k, kwLookup kw1 k = kwLookup kw2 k) (ks : List String) :
    ks.foldr (fun k acc => PyObj.str k :: kwLookup kw1 k :: acc) [] =
      ks.foldr (fun k acc => PyObj.str k :: kwLookup kw2 k :: acc) [] := by
  induction ks with
  | nil => rfl
  | cons k ks ih => simp [List.foldr_cons, ih, hl k]

theorem sortedKeys_perm {kw1 kw2 : List (String × PyObj)} (hp : kw1.Perm kw2) :
    List.insertionSort (fun a b : String => a ≤ b) (kw1.map Prod.fst) =
      List.insertionSort (fun a b : String => a ≤ b) (kw2.map Prod.fst) :=
  List.eq_of_perm_of_sorted
    ((List.perm_insertionSort _ _).trans
      ((hp.map Prod.fst).trans (List.perm_insertionSort _ _).symm))
    (List.sorted_insertionSort _ _) (List.sorted_insertionSort _ _)

theorem reduce_args_perm (args : List PyObj) {kw1 kw2 : List (String × PyObj)}
    (hp : kw1.Perm kw2) (nd : (kw1.map Prod.fst).Nodup) :
    reduce_args args kw1 = reduce_args args kw2 := by
  unfold reduce_args
  dsimp only
  rw [sortedKeys_perm hp, foldr_keys_congr (kwLookup_perm hp nd) _]

theorem WF.toMap {s : PoolS A K V} (w : WF s) : WFmap s :=
  ⟨w.keys_nodup, w.mapped_lt, w.mapped_key⟩

/-- What one `get` guarantees: the structural invariant is preserved, the
returned holder index is in range, it is the index the derived key now maps
to, and the holder stored there carries the derived key. -/
theorem get_spec {keyFn : A → K} {getter : A → Option V} {s : PoolS A K V}
    (w : WFmap s) (a : A) :
    WFmap (PoolS.get keyFn getter s a).2 ∧
    (PoolS.get keyFn getter s a).1 <
      (PoolS.get keyFn getter s a).2.holders.length ∧
    lookupK (PoolS.get keyFn getter s a).2.instances (keyFn a) =
      some (PoolS.get keyFn getter s a).1 ∧
    ∃ h, (PoolS.get keyFn getter s a).2.holders[(PoolS.get keyFn getter s a).1]? =
      some h ∧ h.key = keyFn a := by
  rcases hl : lookupK s.instances (keyFn a) with _ | hid
  · rw [PoolS.get_of_none hl]
    dsimp only
    have hkn := not_mem_keys_of_lookup_none hl
    refine ⟨⟨?_, ?_, ?_⟩, ?_, ?_, ?_⟩
    · rw [List.map_append]
      simp [List.nodup_append, w.keys_nodup, hkn]
    · intro p hp
      rw [List.length_append]
      rcases List.mem_append.mp hp with hp | hp
      · have := w.mapped_lt p hp
        omega
      · simp only [List.mem_singleton] at hp
        subst hp
        simp
    · intro p hp h hh
      rcases List.mem_append.mp hp with hp | hp
      · rw [List.getElem?_append_left (w.mapped_lt p hp)] at hh
        exact w.mapped_key p hp h hh
      · simp only [List.mem_singleton] at hp
        subst hp
        rw [List.getElem?_concat_length] at hh
        cases hh
        rfl
    · simp
    · rw [lookupK_append, lookupK_eq_none_iff.mpr, lookupK_singleton, if_pos rfl]
      · rfl
      · exact lookupK_eq_none_iff.mp hl
    · refine ⟨Holder.fresh (keyFn a) (getter a), ?_, rfl⟩
      exact List.getElem?_concat_length _ _
  · rw [PoolS.get_of_some hl]
    dsimp only
    have hmem := lookupK_some_mem hl
    have hlt := w.mapped_lt _ hmem
    refine ⟨⟨w.keys_nodup, w.mapped_lt, w.mapped_key⟩, hlt, hl, ?_⟩
    exact ⟨s.holders[hid], List.getElem?_eq_getElem hlt,
      w.mapped_key _ hmem _ (List.getElem?_eq_getElem hlt)⟩

theorem exPool1_step :
    step exKey exGetter PoolS.initial (Ev.enter 7) = some exPool1 := by decide

theorem exPool2_step :
    step exKey exGetter exPool1 (Ev.exitScope 7) = some exPool2 := by decide

theorem exPool1_reach : Reach exKey exGetter exPool1 :=
  Reach.next Reach.base exPool1_step

theorem exPool2_reach : Reach exKey exGetter exPool2 :=
  Reach.next exPool1_reach exPool2_step

/-! ### The claims -/

/-- C1: for two `get` calls with equal argument sets (same positional
arguments in the same order, same named-argument values regardless of
supplied order), the first `get` leaves its returned holder live under the
derived key; while that holder is still live, the second `get` returns the
very same holder instance and does not invoke the factory; and in any state
the factory is invoked by `get` exactly once when no live holder exists for
the derived key and not at all when one does. -/
theorem claim_c1 {V : Type} (getter : ArgsP → Option V) (s s2 : PoolS ArgsP Int V)
    (a b : ArgsP) (hpos : a.1 = b.1) (hperm : a.2.Perm b.2)
    (hnd : (a.2.map Prod.fst).Nodup) :
    lookupK (PoolS.get reduceKey getter s a).2.instances (reduceKey a) =
      some (PoolS.get reduceKey getter s a).1 ∧
    (lookupK s2.instances (reduceKey a) = some (PoolS.get reduceKey getter s a).1 →
      (PoolS.get reduceKey getter s2 b).1 = (PoolS.get reduceKey getter s a).1 ∧
      (PoolS.get reduceKey getter s2 b).2.factory_log = s2.factory_log) ∧
    (lookupK s.instances (reduceKey a) = Option.none →
      (PoolS.get reduceKey getter s a).2.factory_log = s.factory_log ++ [a]) ∧
    (∀ hid, lookupK s.instances (reduceKey a) = some hid →
      (PoolS.get reduceKey getter s a).2.factory_log = s.factory_log) := by
  have hkey : reduceKey b = reduceKey a := by
    unfold reduceKey
    rw [← hpos]
    exact (reduce_args_perm a.1 hperm hnd).symm
  refine ⟨?_, ?_, ?_, ?_⟩
  · rcases hl : lookupK s.instances (reduceKey a) with _ | hid
    · rw [PoolS.get_of_none hl]
      dsimp only
      rw [lookupK_append, lookupK_eq_none_iff.mpr (lookupK_eq_none_iff.mp hl),
        lookupK_singleton, if_pos rfl]
      rfl
    · rw [PoolS.get_of_some hl]
      exact hl
  · intro hlive
    have hl2 : lookupK s2.instances (reduceKey b) =
        some (PoolS.get reduceKey getter s a).1 := by
      rw [hkey]
      exact hlive
    rw [PoolS.get_of_some hl2]
    exact ⟨rfl, rfl⟩
  · intro hl
    rw [PoolS.get_of_none hl]
  · intro hid hl
    rw [PoolS.get_of_some hl]
    rfl

/-- Witness for C1 at a concrete pool: two argument sets differing only in
named-argument order, the second `get` performed in the state produced by
the first. -/
theorem claim_c1_witness :
    lookupK (PoolS.get reduceKey c1Getter PoolS.initial c1A).2.instances
        (reduceKey c1A) =
      some (PoolS.get reduceKey c1Getter PoolS.initial c1A).1 ∧
    (lookupK c1S1.instances (reduceKey c1A) =
        some (PoolS.get reduceKey c1Getter PoolS.initial c1A).1 →
      (PoolS.get reduceKey c1Getter c1S1 c1B).1 =
        (PoolS.get reduceKey c1Getter PoolS.initial c1A).1 ∧
      (PoolS.get reduceKey c1Getter c1S1 c1B).2.factory_log = c1S1.factory_log) ∧
    (lookupK (PoolS.initial : PoolS ArgsP Int Nat).instances (reduceKey c1A) =
        Option.none →
      (PoolS.get reduceKey c1Getter PoolS.initial c1A).2.factory_log =
        (PoolS.initial : PoolS ArgsP Int Nat).factory_log ++ [c1A]) ∧
    (∀ hid, lookupK (PoolS.initial : PoolS ArgsP Int Nat).instances (reduceKey c1A) =
        some hid →
      (PoolS.get reduceKey c1Getter PoolS.initial c1A).2.factory_log =
        (PoolS.initial : PoolS ArgsP Int Nat).factory_log) :=
  claim_c1 c1Getter PoolS.initial c1S1 c1A c1B rfl (by decide) (by decide)

/-- C2: for every holder over a resource whose entry yields `v`, after any
sequence of acquisitions and releases the underlying entry routine has been
invoked exactly once if the holder was ever acquired and never otherwise;
and one more acquisition returns the cached value `v` without a further
entry invocation. -/
theorem claim_c2 (k : K) (v : V) (es : List HEv) :
    (runH (Holder.fresh k (some v)) es).value.enter_called =
      (if HEv.acq ∈ es then 1 else 0) ∧
    (runH (Holder.fresh k (some v)) es).aenter.1 = Except.ok v ∧
    (runH (Holder.fresh k (some v)) es).aenter.2.value.enter_called = 1 := by
  have hinv := InvH.runH (InvH.fresh k v) es
  have hcal := runH_called (Holder.fresh k (some v)) es
  obtain ⟨hres, hcnt, hmv⟩ := hinv
  obtain ⟨_, hok, hone⟩ := InvH.aenter ⟨hres, hcnt, hmv⟩
  refine ⟨?_, hok, hone⟩
  by_cases hm : HEv.acq ∈ es
  · have hc : (runH (Holder.fresh k (some v)) es).called_aenter = true :=
      hcal.mpr (Or.inr hm)
    rw [hcnt, hc, if_pos rfl, if_pos hm]
  · have hc : (runH (Holder.fresh k (some v)) es).called_aenter = false := by
      rcases hb : (runH (Holder.fresh k (some v)) es).called_aenter
      · rfl
      · rcases hcal.mp hb with hfc | hin
        · cases hfc
        · exact absurd hin hm
    rw [hcnt, hc, if_neg hm]
    rfl

/-- C3: in every reachable pool state, no holder's resource has been exited
more than once; a pending timer always belongs to a live holder with
reference count zero whose resource is not yet exited; an `enter` for a key
cancels that key's pending timer and reuses the live holder without exiting
it; and the deferred deletion fires only while its timer is pending, and in
that single step removes the key and performs the holder's first and only
resource exit. -/
theorem claim_c3 {keyFn : A → K} {getter : A → Option V} {s : PoolS A K V}
    (hr : Reach keyFn getter s) :
    (∀ h ∈ s.holders, h.value.exit_called ≤ 1) ∧
    (∀ k ∈ s.timers, ∃ hid h, lookupK s.instances k = some hid ∧
      s.holders[hid]? = some h ∧ h.count = 0 ∧ h.value.exit_called = 0) ∧
    (∀ a s', step keyFn getter s (Ev.enter a) = some s' →
      keyFn a ∉ s'.timers ∧
      ∀ hid, lookupK s.instances (keyFn a) = some hid →
        lookupK s'.instances (keyFn a) = some hid ∧
        ∀ h, s.holders[hid]? = some h →
          ∃ h', s'.holders[hid]? = some h' ∧
            h'.value.exit_called = h.value.exit_called) ∧
    (∀ k s', step keyFn getter s (Ev.fire k) = some s' →
      k ∈ s.timers ∧
      ∀ hid h, lookupK s.instances k = some hid → s.holders[hid]? = some h →
        lookupK s'.instances k = Option.none ∧
        s'.holders[hid]? = some h.close ∧ h.value.exit_called = 0) := by
  have w := hr.wf
  refine ⟨w.exit_le, ?_, ?_, ?_⟩
  · intro k hk
    obtain ⟨hid, h, hl, hh, hc⟩ := w.timer_count k hk
    exact ⟨hid, h, hl, hh, hc, w.mapped_exit _ (lookupK_some_mem hl) h hh⟩
  · intro a s' hs
    rcases hl : lookupK s.instances (keyFn a) with _ | hid0
    · rcases hg : getter a with _ | v
      · rw [step_enter_of_none_bad hl hg] at hs
        cases hs
      · rw [step_enter_of_none hl hg] at hs
        obtain rfl := Option.some.inj hs
        constructor
        · intro hmem
          exact (mem_filter_ne.mp hmem).2 rfl
        · intro hid hlk
          cases hlk
    · have hmem := lookupK_some_mem hl
      have hlt0 := w.mapped_lt _ hmem
      obtain ⟨h0, hh0⟩ : ∃ h0, s.holders[hid0]? = some h0 :=
        ⟨s.holders[hid0], List.getElem?_eq_getElem hlt0⟩
      rcases hv : (if h0.called_aenter then h0.managed_value
          else h0.value.enter_result) with _ | v
      · rw [step_enter_of_some_bad hl hh0 hv] at hs
        cases hs
      · rw [step_enter_of_some hl hh0 hv] at hs
        obtain rfl := Option.some.inj hs
        constructor
        · intro hmem2
          exact (mem_filter_ne.mp hmem2).2 rfl
        · intro hid hlk
          have hee : hid0 = hid := Option.some.inj hlk
          subst hee
          refine ⟨hl, ?_⟩
          intro h hh
          have hhe : h0 = h := by
            rw [hh0] at hh
            exact Option.some.inj hh
          subst hhe
          refine ⟨h0.aenter.2, ?_, Holder.aenter_snd_exit h0⟩
          exact List.getElem?_set_eq_of_lt _ (w.mapped_lt _ hmem)
  · intro k s' hs
    by_cases hmem : k ∈ s.timers
    · rw [step_fire_of_mem hmem] at hs
      obtain rfl := Option.some.inj hs
      refine ⟨hmem, ?_⟩
      intro hid h hl hh
      refine ⟨?_, ?_, w.mapped_exit _ (lookupK_some_mem hl) h hh⟩
      · rw [delete_instances_eq]
        exact lookupK_eraseKey_self
      · rw [PoolS.delete_of_some hl hh]
        exact List.getElem?_set_eq_of_lt _ (w.mapped_lt _ (lookupK_some_mem hl))
    · rw [step_fire_of_nmem hmem] at hs
      cases hs

/-- Witness for C3 at the concrete reachable state with one idle holder and
a pending timer. -/
theorem claim_c3_witness :
    (∀ h ∈ exPool2.holders, h.value.exit_called ≤ 1) ∧
    (∀ k ∈ exPool2.timers, ∃ hid h, lookupK exPool2.instances k = some hid ∧
      exPool2.holders[hid]? = some h ∧ h.count = 0 ∧ h.value.exit_called = 0) ∧
    (∀ a s', step exKey exGetter exPool2 (Ev.enter a) = some s' →
      exKey a ∉ s'.timers ∧
      ∀ hid, lookupK exPool2.instances (exKey a) = some hid →
        lookupK s'.instances (exKey a) = some hid ∧
        ∀ h, exPool2.holders[hid]? = some h →
          ∃ h', s'.holders[hid]? = some h' ∧
            h'.value.exit_called = h.value.exit_called) ∧
    (∀ k s', step exKey exGetter exPool2 (Ev.fire k) = some s' →
      k ∈ exPool2.timers ∧
      ∀ hid h, lookupK exPool2.instances k = some hid →
        exPool2.holders[hid]? = some h →
        lookupK s'.instances k = Option.none ∧
        s'.holders[hid]? = some h.close ∧ h.value.exit_called = 0) :=
  claim_c3 exPool2_reach

/-- C4, as stated, is false: two distinct argument sets whose CPython hashes
collide derive the same key, so the second `get` returns the very same
holder instance.  Here 0 and 2^61 - 1 are distinct integers hashing alike. -/
theorem claim_c4_counterexample :
    c4A ≠ c4B ∧
    reduceKey c4A = reduceKey c4B ∧
    (PoolS.get reduceKey c4Getter
        (PoolS.get reduceKey c4Getter PoolS.initial c4A).2 c4B).1 =
      (PoolS.get reduceKey c4Getter PoolS.initial c4A).1 := by
  refine ⟨by decide, by decide, by decide⟩

/-- C4 (amended): for two `get` calls on a reachable pool whose argument
sets derive distinct keys, the holders returned are distinct instances. -/
theorem claim_c4 {keyFn : A → K} {getter : A → Option V} {s : PoolS A K V}
    (hr : Reach keyFn getter s) {a b : A} (hk : keyFn a ≠ keyFn b) :
    (PoolS.get keyFn getter (PoolS.get keyFn getter s a).2 b).1 ≠
      (PoolS.get keyFn getter s a).1 := by
  obtain ⟨w1, hlt1, hlk1, hA, hhA, hkeyA⟩ := get_spec hr.wf.toMap a
  rcases hl2 : lookupK (PoolS.get keyFn getter s a).2.instances (keyFn b)
    with _ | hid2
  · rw [PoolS.get_of_none hl2]
    dsimp only
    intro he
    rw [he] at hlt1
    exact absurd hlt1 (lt_irrefl _)
  · rw [PoolS.get_of_some hl2]
    dsimp only
    intro he
    subst he
    have hkeyB := w1.mapped_key _ (lookupK_some_mem hl2) hA hhA
    exact hk (hkeyA ▸ hkeyB ▸ rfl)

/-- Witness for the amended C4: keys 3 and 4 are distinct, so the two
holders differ. -/
theorem claim_c4_witness :
    (PoolS.get exKey exGetter (PoolS.get exKey exGetter PoolS.initial 3).2 4).1 ≠
      (PoolS.get exKey exGetter PoolS.initial 3).1 :=
  claim_c4 Reach.base (by decide)

/-- C5: in every reachable pool state, a key has a pending eviction timer
exactly when it is mapped to a holder whose reference count is zero (and
the eviction has not yet fired, the firing having removed the timer). -/
theorem claim_c5 {keyFn : A → K} {getter : A → Option V} {s : PoolS A K V}
    (hr : Reach keyFn getter s) (k : K) :
    k ∈ s.timers ↔
      ∃ hid h, lookupK s.instances k = some hid ∧ s.holders[hid]? = some h ∧
        h.count = 0 := by
  have w := hr.wf
  constructor
  · exact w.timer_count k
  · rintro ⟨hid, h, hl, hh, hz⟩
    exact w.zero_timer (k, hid) (lookupK_some_mem hl) h hh hz

/-- Witness for C5 at the concrete reachable state with a pending timer for
key 7. -/
theorem claim_c5_witness :
    7 ∈ exPool2.timers ↔
      ∃ hid h, lookupK exPool2.instances 7 = some hid ∧
        exPool2.holders[hid]? = some h ∧ h.count = 0 :=
  claim_c5 exPool2_reach 7

/-- C6: for every holder and every sequence of acquisitions and releases,
as soon as some prefix contains more releases than acquisitions (a release
that would drive the reference count negative), the run raises the
programming error of `__aexit__`. -/
theorem claim_c6 (k : K) (v : V) (es : List HEv)
    (hex : ∃ i, (es.take i).count HEv.acq < (es.take i).count HEv.rel) :
    runHE (Holder.fresh k (some v)) es = some PyErr.aexitTooMany := by
  refine runHE_excess es (Holder.fresh k (some v)) v rfl ?_ ?_ ?_
  · intro hc
    cases hc
  · exact le_refl 0
  · obtain ⟨i, hi⟩ := hex
    refine ⟨i, ?_⟩
    show ((0 : Int) + _ < _)
    omega

/-- Witness for C6: a single release with no prior acquisition raises. -/
theorem claim_c6_witness :
    (([HEv.rel] : List HEv).take 1).count HEv.acq <
      (([HEv.rel] : List HEv).take 1).count HEv.rel ∧
    runHE (Holder.fresh (0 : Nat) (some (0 : Nat))) [HEv.rel] =
      some PyErr.aexitTooMany :=
  ⟨by decide, claim_c6 0 0 [HEv.rel] ⟨1, by decide⟩⟩

/-- C7: in every reachable pool state every mapped key's holder has a
non-negative reference count, and the deletion step (timer firing or pool
shutdown) removes the key from the mapping in the same step in which it
performs the resource release. -/
theorem claim_c7 {keyFn : A → K} {getter : A → Option V} {s : PoolS A K V}
    (hr : Reach keyFn getter s) :
    (∀ p ∈ s.instances, ∃ h, s.holders[p.2]? = some h ∧ 0 ≤ h.count) ∧
    (∀ k s', step keyFn getter s (Ev.fire k) = some s' →
      ∀ hid h, lookupK s.instances k = some hid → s.holders[hid]? = some h →
        lookupK s'.instances k = Option.none ∧ s'.holders[hid]? = some h.close) ∧
    (∀ s', step keyFn getter s Ev.shutdown = some s' →
      ∀ p ∈ s.instances, ∀ h : Holder K V, s.holders[p.2]? = some h →
        lookupK s'.instances p.1 = Option.none ∧
        s'.holders[p.2]? = some h.close) := by
  have w := hr.wf
  refine ⟨?_, ?_, ?_⟩
  · intro p hp
    have hlt := w.mapped_lt p hp
    exact ⟨s.holders[p.2], List.getElem?_eq_getElem hlt,
      w.mapped_count p hp _ (List.getElem?_eq_getElem hlt)⟩
  · intro k s' hs
    by_cases hmem : k ∈ s.timers
    · rw [step_fire_of_mem hmem] at hs
      obtain rfl := Option.some.inj hs
      intro hid h hl hh
      constructor
      · rw [delete_instances_eq]
        exact lookupK_eraseKey_self
      · rw [PoolS.delete_of_some hl hh]
        exact List.getElem?_set_eq_of_lt _ (w.mapped_lt _ (lookupK_some_mem hl))
    · rw [step_fire_of_nmem hmem] at hs
      cases hs
  · intro s' hs
    rw [step_shutdown] at hs
    obtain rfl := Option.some.inj hs
    intro p hp h hh
    constructor
    · rw [shutdown_instances]
      rfl
    · exact shutdown_closes w p hp h hh

/-- Witness for C7 at the concrete reachable state with one live holder. -/
theorem claim_c7_witness :
    (∀ p ∈ exPool1.instances, ∃ h, exPool1.holders[p.2]? = some h ∧
      0 ≤ h.count) ∧
    (∀ k s', step exKey exGetter exPool1 (Ev.fire k) = some s' →
      ∀ hid h, lookupK exPool1.instances k = some hid →
        exPool1.holders[hid]? = some h →
        lookupK s'.instances k = Option.none ∧ s'.holders[hid]? = some h.close) ∧
    (∀ s', step exKey exGetter exPool1 Ev.shutdown = some s' →
      ∀ p ∈ exPool1.instances, ∀ h : Holder Nat Nat,
        exPool1.holders[p.2]? = some h →
        lookupK s'.instances p.1 = Option.none ∧
        s'.holders[p.2]? = some h.close) :=
  claim_c7 exPool1_reach

/-- C8: the default key deriver is a function of the argument sets alone
(hence deterministic), and two calls with equal positional arguments and
equal named arguments supplied in any order derive equal keys. -/
theorem claim_c8 (args : List PyObj) (kw1 kw2 : List (String × PyObj))
    (hp : kw1.Perm kw2) (nd : (kw1.map Prod.fst).Nodup) :
    reduce_args args kw1 = reduce_args args kw2 :=
  reduce_args_perm args hp nd

/-- Witness for C8: reordering two named arguments derives an equal key. -/
theorem claim_c8_witness :
    c8kw1.Perm c8kw2 ∧ (c8kw1.map Prod.fst).Nodup ∧
    reduce_args c8args c8kw1 = reduce_args c8args c8kw2 :=
  ⟨by decide, by decide, claim_c8 c8args c8kw1 c8kw2 (by decide) (by decide)⟩

/-- C9: shutting the pool down from any reachable state — with no condition
on reference counts or pending timers — empties the instance dictionary and
the timer dictionary, leaves the pool with size zero, and performs exactly
one resource exit on every holder that was mapped. -/
theorem claim_c9 {keyFn : A → K} {getter : A → Option V} {s : PoolS A K V}
    (hr : Reach keyFn getter s) :
    (s.shutdown).instances = [] ∧ (s.shutdown).timers = [] ∧
    PoolS.len s.shutdown = 0 ∧
    ∀ p ∈ s.instances, ∀ h : Holder K V, s.holders[p.2]? = some h →
      (s.shutdown).holders[p.2]? = some h.close ∧
      h.value.exit_called = 0 ∧ h.close.value.exit_called = 1 := by
  have w := hr.wf
  refine ⟨shutdown_instances, shutdown_timers w, ?_, ?_⟩
  · show (s.shutdown).instances.length = 0
    rw [shutdown_instances]
    rfl
  · intro p hp h hh
    have hexit := w.mapped_exit p hp h hh
    refine ⟨shutdown_closes w p hp h hh, hexit, ?_⟩
    show h.value.exit_called + 1 = 1
    omega

/-- Witness for C9 at the concrete reachable state with a pending timer. -/
theorem claim_c9_witness :
    (exPool2.shutdown).instances = [] ∧ (exPool2.shutdown).timers = [] ∧
    PoolS.len exPool2.shutdown = 0 ∧
    ∀ p ∈ exPool2.instances, ∀ h : Holder Nat Nat,
      exPool2.holders[p.2]? = some h →
      (exPool2.shutdown).holders[p.2]? = some h.close ∧
      h.value.exit_called = 0 ∧ h.close.value.exit_called = 1 :=
  claim_c9 exPool2_reach

/-- C10: acquiring a holder whose resource's entry returned an absent value
raises the fatal programming error on every acquisition, yet each failed
acquisition still increments the reference count and leaves the
entered-flag set, and the entry routine is never invoked again after the
first acquisition. -/
theorem claim_c10 (k : K) (n : Nat) :
    (aenterN (Holder.fresh k (Option.none : Option V)) n).aenter.1 =
      Except.error PyErr.notPossible ∧
    (aenterN (Holder.fresh k (Option.none : Option V)) (n + 1)).count =
      (n : Int) + 1 ∧
    (aenterN (Holder.fresh k (Option.none : Option V)) (n + 1)).called_aenter =
      true ∧
    (aenterN (Holder.fresh k (Option.none : Option V)) (n + 1)).value.enter_called
      = 1 := by
  have h2 := aenterN_none (V := V) k (n + 1)
  rw [if_neg (Nat.succ_ne_zero n)] at h2
  refine ⟨?_, ?_, ?_, ?_⟩
  · rw [Holder.aenter_fst]
    by_cases hn : n = 0
    · subst hn
      rw [aenterN_none (V := V) k 0, if_pos rfl]
      rfl
    · rw [aenterN_none (V := V) k n, if_neg hn]
      rfl
  · rw [h2]
    push_cast
    ring
  · rw [h2]
  · rw [h2]

end ACMPool
